import Mathlib

/-!
Shallow embedding of the `Parallel` namespace of libmesh
(`include/parallel/parallel.h`) and proofs about it.

Modelling conventions:
* `std::vector<X>` becomes `List X`; an indexed read `v[i]` becomes
  `List.getD v i d` (the default `d` is irrelevant at in-bounds indices).
* The unsigned backing scalar of the bit-packing helpers (instantiated as
  `unsigned int` by the boolean reductions) is modelled as `Nat` together
  with an explicit word width `w = 8 * sizeof(T)` in bits; arithmetic and
  shifts that wrap in C++ carry an explicit `% 2 ^ w`.
* A group of cooperating processes is modelled as a list whose `i`-th entry
  is the datum held by rank `i`; `n_processors` is the list length.  MPI
  collectives (external transport) are given their documented semantics in
  terms of every rank's contribution.  Each modelled operation also returns
  the number of transport (MPI) calls one process issues.
* Point-to-point transport primitives are abstracted by a `Transport`
  record; fatal errors (`libmesh_error`) become the `SerialResult.fatal`
  outcome.
-/

/-- Loop body of `Parallel::pack_vector_bool`:
`for i: out[i/data_bits] += (in[i]?1:0) << (i%data_bits)`.
The `+=` is on the unsigned backing type, hence reduced `% 2 ^ w`. -/
def packLoop (w : Nat) : List Bool → Nat → List Nat → List Nat
  | [], _, out => out
  | b :: rest, i, out =>
      packLoop w rest (i + 1)
        (out.set (i / w) ((out.getD (i / w) 0 + (cond b 1 0) <<< (i % w)) % 2 ^ w))

/-- `Parallel::pack_vector_bool`: clear `out`, resize it to
`in_size/data_bits + (in_size%data_bits?1:0)` zeroed words, then run the
packing loop over all input bits. -/
def pack_vector_bool (w : Nat) (inp : List Bool) : List Nat :=
  packLoop w inp 0
    (List.replicate (inp.length / w + if inp.length % w ≠ 0 then 1 else 0) 0)

/-- The bit extraction `in[index] << (data_bits-1-offset) >> (data_bits-1)`
of `Parallel::unpack_vector_bool`, on the `w`-bit unsigned backing type
(the left shift discards bits above position `w - 1`). -/
def unpack_bit (w x offset : Nat) : Nat :=
  ((x <<< (w - 1 - offset)) % 2 ^ w) >>> (w - 1)

/-- `Parallel::unpack_vector_bool`: the caller pre-sizes `out` to
`out_size`; entry `i` is assigned the extracted bit (converted to `bool`,
i.e. compared against zero). -/
def unpack_vector_bool (w : Nat) (inp : List Nat) (out_size : Nat) : List Bool :=
  (List.range out_size).map (fun i => decide (unpack_bit w (inp.getD (i / w) 0) (i % w) ≠ 0))

/-- The debug assertion of `Parallel::unpack_vector_bool`:
`out_size/data_bits + (out_size%data_bits?1:0) == in.size()`. -/
def unpack_assert (w : Nat) (out_size : Nat) (inp : List Nat) : Bool :=
  out_size / w + (if out_size % w ≠ 0 then 1 else 0) == inp.length

/-- Global minimum across all ranks' contributions:
`MPI_Allreduce(..., MPI_MIN, ...)` on one element per rank. -/
def allreduceMin {T : Type} [LinearOrder T] [Inhabited T] : List T → T
  | [] => default
  | x :: xs => xs.foldl min x

/-- Global maximum across all ranks' contributions:
`MPI_Allreduce(..., MPI_MAX, ...)` on one element per rank. -/
def allreduceMax {T : Type} [LinearOrder T] [Inhabited T] : List T → T
  | [] => default
  | x :: xs => xs.foldl max x

/-- Global sum across all ranks' contributions:
`MPI_Allreduce(..., MPI_SUM, ...)` on one element per rank. -/
def allreduceSum {T : Type} [Add T] [Inhabited T] : List T → T
  | [] => default
  | x :: xs => xs.foldl (· + ·) x

/-- Element-wise global minimum of one vector per rank
(`MPI_Allreduce` with a count larger than one). -/
def allreduceMinVec {T : Type} [LinearOrder T] : List (List T) → List T
  | [] => []
  | v :: rest => rest.foldl (fun acc u => List.zipWith min acc u) v

/-- Element-wise global maximum of one vector per rank. -/
def allreduceMaxVec {T : Type} [LinearOrder T] : List (List T) → List T
  | [] => []
  | v :: rest => rest.foldl (fun acc u => List.zipWith max acc u) v

/-- Element-wise global sum of one vector per rank. -/
def allreduceSumVec {T : Type} [Add T] : List (List T) → List T
  | [] => []
  | v :: rest => rest.foldl (fun acc u => List.zipWith (· + ·) acc u) v

/-- `Parallel::verify(const T&)` over the ensemble `vs` (entry `s` is the
value held by rank `s`), executed by rank `r`.  With more than one process
it computes the global min and max, compares the local value against both,
and min-reduces the boolean flag (promoted to an unsigned integer, exactly
like `Parallel::min(bool&)`) so every rank agrees.  Returns the flag and
the number of transport calls made. -/
def verify {T : Type} [LinearOrder T] [Inhabited T] (vs : List T) (r : Nat) :
    Bool × Nat :=
  if 1 < vs.length then
    let x := vs.getD r default
    let tempmin := allreduceMin vs
    let tempmax := allreduceMax vs
    let verified := decide (x = tempmin) && decide (x = tempmax)
    let flags : List Nat :=
      vs.map (fun y => cond (decide (y = tempmin) && decide (y = tempmax)) 1 0)
    (decide (allreduceMin flags ≠ 0), 3)
  else (true, 0)

/-- The point-to-point transport boundary (`MPI_Sendrecv`) as an abstract
oracle: what arrives only depends on the transport, not on this layer. -/
structure Transport (T : Type) where
  sendrecvScalar : Nat → T → Nat → T
  sendrecvSize : Nat → Nat → Nat → Nat
  sendrecvSizes : Nat → List Nat → Nat → Nat → List Nat
  sendrecvData : Nat → List T → Nat → Nat → List T

/-- `Parallel::send_receive` for a scalar payload, executed by rank
`procId`: a pure local copy when destination and source are both the local
rank, otherwise one `MPI_Sendrecv`.  Returns the received value and the
number of transport calls. -/
def send_receive_scalar {T : Type} (procId : Nat) (tr : Transport T)
    (dest : Nat) (send : T) (src : Nat) : T × Nat :=
  if dest = procId ∧ src = procId then (send, 0)
  else (tr.sendrecvScalar dest send src, 1)

/-- `Parallel::send_receive` for a `std::vector<T>` payload: local copy on
the self-path, otherwise trade buffer sizes first, resize, then trade the
payload (two `MPI_Sendrecv` calls). -/
def send_receive_vector {T : Type} (procId : Nat) (tr : Transport T)
    (dest : Nat) (send : List T) (src : Nat) : List T × Nat :=
  if dest = procId ∧ src = procId then (send, 0)
  else
    let sendsize := send.length
    let recvsize := tr.sendrecvSize dest sendsize src
    let recvdata := tr.sendrecvData dest send src recvsize
    (recvdata, 2)

/-- The scatter loop at the end of the vector-of-vector `send_receive`:
split the flat receive buffer back into rows of the exchanged lengths. -/
def splitInto {T : Type} : List Nat → List T → List (List T)
  | [], _ => []
  | n :: ns, data => data.take n :: splitInto ns (data.drop n)

/-- `Parallel::send_receive` for a `std::vector<std::vector<T>>` payload:
local copy on the self-path, otherwise exchange the outer size, the inner
sizes, then one bulk transfer of the flattened data, scattered back into
rows (three `MPI_Sendrecv` calls). -/
def send_receive_vecvec {T : Type} (procId : Nat) (tr : Transport T)
    (dest : Nat) (send : List (List T)) (src : Nat) : List (List T) × Nat :=
  if dest = procId ∧ src = procId then (send, 0)
  else
    let sendsize := send.length
    let recvsize := tr.sendrecvSize dest sendsize src
    let sendsizes := send.map List.length
    let recvsizes := tr.sendrecvSizes dest sendsizes src recvsize
    let senddata := send.flatten
    let recvdata := tr.sendrecvData dest senddata src recvsizes.sum
    (splitInto recvsizes recvdata, 3)

/-- `Parallel::min(T&)` over the ensemble: every rank's value becomes the
global minimum; a single process makes no transport call and keeps its
value. -/
def par_min_scalar {T : Type} [LinearOrder T] [Inhabited T] (vs : List T) :
    List T × Nat :=
  if 1 < vs.length then (vs.map (fun _ => allreduceMin vs), 1) else (vs, 0)

/-- `Parallel::max(T&)` over the ensemble. -/
def par_max_scalar {T : Type} [LinearOrder T] [Inhabited T] (vs : List T) :
    List T × Nat :=
  if 1 < vs.length then (vs.map (fun _ => allreduceMax vs), 1) else (vs, 0)

/-- `Parallel::sum(T&)` over the ensemble. -/
def par_sum_scalar {T : Type} [Add T] [Inhabited T] (vs : List T) :
    List T × Nat :=
  if 1 < vs.length then (vs.map (fun _ => allreduceSum vs), 1) else (vs, 0)

/-- `Parallel::min(std::vector<T>&)` over the ensemble. -/
def par_min_vector {T : Type} [LinearOrder T] (vss : List (List T)) :
    List (List T) × Nat :=
  if 1 < vss.length then (vss.map (fun _ => allreduceMinVec vss), 1) else (vss, 0)

/-- `Parallel::max(std::vector<T>&)` over the ensemble. -/
def par_max_vector {T : Type} [LinearOrder T] (vss : List (List T)) :
    List (List T) × Nat :=
  if 1 < vss.length then (vss.map (fun _ => allreduceMaxVec vss), 1) else (vss, 0)

/-- `Parallel::sum(std::vector<T>&)` over the ensemble.  A rank whose own
vector is empty skips the reduction (`!r.empty()` in the source); mixed
emptiness across ranks would hang the real transport and is not modelled
further. -/
def par_sum_vector {T : Type} [Add T] (vss : List (List T)) :
    List (List T) × Nat :=
  if 1 < vss.length then
    ((List.range vss.length).map (fun i =>
      if (vss.getD i []).isEmpty then vss.getD i []
      else allreduceSumVec vss), 1)
  else (vss, 0)

/-- `std::vector::resize(n)`: keep the first `n` entries, pad with
default-initialized elements. -/
def resizeTo {T : Type} [Inhabited T] (l : List T) (n : Nat) : List T :=
  l.take n ++ List.replicate (n - l.length) default

/-- Overwrite `dst[pos .. pos + src.length)` with `src`. -/
def writeAt {T : Type} (dst : List T) (pos : Nat) (src : List T) : List T :=
  dst.take pos ++ src ++ dst.drop (pos + src.length)

/-- `MPI_Gatherv` as seen by the receiving buffer: rank `i`'s block is
written at displacement `i`. -/
def gathervWrite {T : Type} : List T → List Nat → List (List T) → List T
  | buf, d :: ds, s :: ss => gathervWrite (writeAt buf d s) ds ss
  | buf, _, _ => buf

/-- The displacement loop of the variable-length gather/allgather:
`for i { displacements[i] = globalsize; globalsize += sendlengths[i]; }`.
Returns `(globalsize, displacements)`. -/
def displacementLoop : List Nat → Nat → Nat × List Nat
  | [], g => (g, [])
  | l :: ls, g =>
      let rest := displacementLoop ls (g + l)
      (rest.1, g :: rest.2)

/-- `Parallel::gather(root_id, std::vector<T>&)` over the ensemble `bufs`
(entry `i` is rank `i`'s buffer).  One process: assert and return.  Collect
the per-rank lengths (one allgather call), compute displacements, quick
return if the total is zero, otherwise the root's resized buffer receives
every rank's block (`MPI_Gatherv`) while the other buffers are not written
to. -/
def gather_vector {T : Type} [Inhabited T] (root : Nat) (bufs : List (List T)) :
    List (List T) × Nat :=
  if bufs.length = 1 then (bufs, 0)
  else
    let sendlengths := bufs.map List.length
    let gd := displacementLoop sendlengths 0
    if gd.1 = 0 then (bufs, 1)
    else
      ((List.range bufs.length).map (fun i =>
        if i = root then gathervWrite (resizeTo (bufs.getD i []) gd.1) gd.2 bufs
        else bufs.getD i []), 2)

/-- `Parallel::allgather(std::vector<T>&)` over the ensemble: as
`gather_vector` but every rank's resized buffer receives all blocks
(`MPI_Allgatherv`). -/
def allgather_vector {T : Type} [Inhabited T] (bufs : List (List T)) :
    List (List T) × Nat :=
  if bufs.length = 1 then (bufs, 0)
  else
    let sendlengths := bufs.map List.length
    let gd := displacementLoop sendlengths 0
    if gd.1 = 0 then (bufs, 1)
    else
      ((List.range bufs.length).map (fun i =>
        gathervWrite (resizeTo (bufs.getD i []) gd.1) gd.2 bufs), 2)

/-- `Parallel::alltoall(std::vector<T>&)` over the ensemble: one process
returns immediately; otherwise each rank computes
`size_per_proc = buf.size() / n_processors` and `MPI_Alltoall` delivers to
rank `i`, at block position `j`, the block rank `j` had at position `i`. -/
def alltoall {T : Type} (bufs : List (List T)) : List (List T) × Nat :=
  if bufs.length = 1 then (bufs, 0)
  else
    ((List.range bufs.length).map (fun i =>
      let size_per_proc := (bufs.getD i []).length / bufs.length
      ((List.range bufs.length).map (fun j =>
        ((bufs.getD j []).drop (i * size_per_proc)).take size_per_proc)).flatten), 1)

/-- The debug assertion of `Parallel::alltoall`, checked on every rank:
`buf.size() % n_processors == 0`. -/
def alltoall_assert {T : Type} (bufs : List (List T)) : Bool :=
  bufs.all (fun b => b.length % bufs.length == 0)

/-- `Parallel::broadcast(T&, root)` over the ensemble: one process asserts
and returns; otherwise `MPI_Bcast` replaces every rank's datum with the
root's. -/
def broadcast_scalar {T : Type} [Inhabited T] (root : Nat) (datas : List T) :
    List T × Nat :=
  if datas.length = 1 then (datas, 0)
  else ((List.range datas.length).map (fun _ => datas.getD root default), 1)

/-- `Parallel::broadcast(std::vector<T>&, root)` over the ensemble (buffers
pre-sized by the caller): `MPI_Bcast` replaces every rank's buffer contents
with the root's. -/
def broadcast_vector {T : Type} [Inhabited T] (root : Nat) (datas : List (List T)) :
    List (List T) × Nat :=
  if datas.length = 1 then (datas, 0)
  else ((List.range datas.length).map (fun _ => datas.getD root []), 1)

/-- `Parallel::broadcast(std::string&, root)` over the ensemble: broadcast
the length, size a char buffer to it (the root copies its string in),
broadcast the buffer, and rebuild each rank's string from the received
chars.  Strings are modelled as lists of characters. -/
def broadcast_string (root : Nat) (datas : List (List Char)) :
    List (List Char) × Nat :=
  if datas.length = 1 then (datas, 0)
  else
    let sizes := broadcast_scalar root (datas.map List.length)
    let data_cs := (List.range datas.length).map (fun r =>
      let data_size := sizes.1.getD r 0
      if r = root then
        (List.range data_size).map (fun i => (datas.getD r []).getD i default)
      else List.replicate data_size default)
    let bc := broadcast_vector root data_cs
    ((List.range datas.length).map (fun r => bc.1.getD r []), sizes.2 + bc.2)

/-- Outcome of an operation in the no-transport (single-process) build:
either a result or the fatal `libmesh_error()`. -/
inductive SerialResult (α : Type) where
  | ok : α → SerialResult α
  | fatal : SerialResult α

/-- no-MPI `Parallel::send`: `{ libmesh_error(); }` — blocking sends make
no sense on one processor. -/
def serial_send {T : Type} (_dest : Nat) (_buf : List T) (_tag : Nat) :
    SerialResult Unit :=
  SerialResult.fatal

/-- no-MPI `Parallel::recv`: `{ libmesh_error(); return Status(); }`. -/
def serial_recv {T : Type} (_src : Int) (_buf : List T) (_tag : Int) :
    SerialResult Unit :=
  SerialResult.fatal

/-- no-MPI `Parallel::isend`: `{}` — a no-op leaving buffer and request
untouched. -/
def serial_isend {T : Type} (_dest : Nat) (buf : List T) (req : Nat) (_tag : Int) :
    SerialResult (List T × Nat) :=
  SerialResult.ok (buf, req)

/-- no-MPI `Parallel::irecv`: `{}`. -/
def serial_irecv {T : Type} (_src : Int) (buf : List T) (req : Nat) (_tag : Int) :
    SerialResult (List T × Nat) :=
  SerialResult.ok (buf, req)

/-- no-MPI `Parallel::wait(request&)`: `{}`. -/
def serial_wait (_req : Nat) : SerialResult Unit := SerialResult.ok ()

/-- no-MPI `Parallel::wait(std::vector<request>&)`: `{}`. -/
def serial_waitall (_reqs : List Nat) : SerialResult Unit := SerialResult.ok ()

/-- A concrete transport oracle used to instantiate theorems at examples. -/
def idTransport : Transport Nat :=
  ⟨fun _ x _ => x, fun _ n _ => n, fun _ l _ _ => l, fun _ l _ _ => l⟩

-- ===================================================================
-- Helper lemmas
-- ===================================================================

theorem getD_set_self (l : List Nat) (n a : Nat) (h : n < l.length) :
    (l.set n a).getD n 0 = a := by
  simp [List.getD_eq_getElem?_getD, List.getElem?_set_self h]

theorem getD_set_ne (l : List Nat) (n j a : Nat) (h : n ≠ j) :
    (l.set n a).getD j 0 = l.getD j 0 := by
  simp [List.getD_eq_getElem?_getD, List.getElem?_set_ne h]

theorem getD_map_range {α : Type} (f : Nat → α) (n i : Nat) (d : α) (h : i < n) :
    ((List.range n).map f).getD i d = f i := by
  simp [List.getD_eq_getElem?_getD, List.getElem?_range h]

theorem getD_replicate_zero (m j : Nat) :
    (List.replicate m (0 : Nat)).getD j 0 = 0 := by
  rcases Nat.lt_or_ge j m with h | h
  · simp [List.getD_eq_getElem?_getD, List.getElem?_replicate_of_lt h]
  · simp [List.getD_eq_getElem?_getD, List.getElem?_replicate, Nat.not_lt.mpr h]

/-- The extraction `x << (w-1-o) >> (w-1)` on a `w`-bit word reads bit `o`. -/
theorem unpack_bit_eq_testBit (w x o : Nat) (hw : 0 < w) (ho : o < w) :
    unpack_bit w x o = cond (x.testBit o) 1 0 := by
  have hko : w - 1 - o + (o + 1) = w := by omega
  have hk1 : w - 1 - o + o = w - 1 := by omega
  rw [unpack_bit, Nat.shiftLeft_eq, Nat.shiftRight_eq_div_pow]
  rw [show (2 : Nat) ^ w = 2 ^ (w - 1 - o) * 2 ^ (o + 1) by rw [← Nat.pow_add, hko]]
  rw [Nat.mul_comm x (2 ^ (w - 1 - o)), Nat.mul_mod_mul_left]
  rw [show (2 : Nat) ^ (w - 1) = 2 ^ (w - 1 - o) * 2 ^ o by rw [← Nat.pow_add, hk1]]
  rw [Nat.mul_div_mul_left _ _ (Nat.two_pow_pos _)]
  rw [show (2 : Nat) ^ (o + 1) = 2 ^ o * 2 by rw [Nat.pow_succ]]
  rw [Nat.mod_mul_right_div_self]
  rw [Nat.testBit_to_div_mod]
  rcases Nat.mod_two_eq_zero_or_one (x / 2 ^ o) with h | h <;> simp [h]

/-- If every bit of `v` in `[o, o + d)` is clear and `v < 2 ^ (o + d)`,
then `v < 2 ^ o`. -/
theorem lt_two_pow_of_bits_clear (o : Nat) :
    ∀ d (v : Nat), v < 2 ^ (o + d) →
      (∀ q, o ≤ q → q < o + d → v.testBit q = false) → v < 2 ^ o := by
  intro d
  induction d with
  | zero => intro v hv _; simpa using hv
  | succ d ih =>
      intro v hv hc
      apply ih v
      · have hb := hc (o + d) (by omega) (by omega)
        rw [Nat.testBit_to_div_mod, decide_eq_false_iff_not] at hb
        have h2 : v < 2 ^ (o + d) * 2 := by
          have he : o + (d + 1) = (o + d) + 1 := by omega
          rw [he, Nat.pow_succ] at hv
          exact hv
        by_contra hge
        push_neg at hge
        have h4 : v / 2 ^ (o + d) = 1 := by
          apply Nat.div_eq_of_lt_le
          · rw [Nat.one_mul]; exact hge
          · rw [Nat.mul_comm] at h2; exact h2
        rw [h4] at hb
        exact hb rfl
      · intro q hq1 hq2; exact hc q hq1 (by omega)

theorem testBit_add_mul_pow_self {v c o : Nat} (hv : v < 2 ^ o) (hc : c ≤ 1) :
    (v + c * 2 ^ o).testBit o = decide (c = 1) := by
  rw [Nat.testBit_to_div_mod]
  rw [Nat.add_mul_div_right _ _ (Nat.two_pow_pos o)]
  rw [Nat.div_eq_of_lt hv]
  interval_cases c <;> simp

theorem testBit_add_mul_pow_lt {v c o q : Nat} (hv : v < 2 ^ o) (hq : q < o) :
    (v + c * 2 ^ o).testBit q = v.testBit q := by
  have hmod : (v + c * 2 ^ o) % 2 ^ o = v := by
    rw [Nat.add_mul_mod_self_right, Nat.mod_eq_of_lt hv]
  have h1 := Nat.testBit_mod_two_pow (v + c * 2 ^ o) o q
  rw [hmod, decide_eq_true hq, Bool.true_and] at h1
  exact h1.symm

/-- Adding a single bit at position `o` to a value below `2 ^ o` stays below
`2 ^ o * 2`. -/
theorem add_bit_lt {v c x : Nat} (hv : v < x) (hc : c ≤ 1) : v + c * x < x * 2 := by
  have hc01 : c = 0 ∨ c = 1 := by omega
  rcases hc01 with h | h <;> rw [h] <;> omega

/-- Characterization of the packing loop: starting at bit position `i` with a
word buffer whose bits at positions `≥ i` are all clear, the loop writes bit
`i + n` of the stream to word `(i+n)/w`, offset `(i+n)%w`, and leaves every
other bit alone. -/
theorem packLoop_testBit (w : Nat) (hw : 0 < w) :
    ∀ (ins : List Bool) (i : Nat) (out : List Nat),
      (∀ j, out.getD j 0 < 2 ^ w) →
      (∀ p, i ≤ p → (out.getD (p / w) 0).testBit (p % w) = false) →
      i + ins.length ≤ out.length * w →
      ∀ p, ((packLoop w ins i out).getD (p / w) 0).testBit (p % w) =
        if i ≤ p ∧ p < i + ins.length then ins.getD (p - i) false
        else (out.getD (p / w) 0).testBit (p % w) := by
  intro ins
  induction ins with
  | nil =>
      intro i out _ _ _ p
      simp only [packLoop, List.length_nil]
      have hno : ¬ (i ≤ p ∧ p < i + 0) := by omega
      rw [if_neg hno]
  | cons b rest ih =>
      intro i out hlt hcl hlen p
      have hiw : i / w < out.length := by
        have h1 : i < out.length * w := by
          simp only [List.length_cons] at hlen
          omega
        rw [Nat.mul_comm] at h1
        exact Nat.div_lt_of_lt_mul h1
      set v := out.getD (i / w) 0 with hv_def
      set c : Nat := cond b 1 0 with hc_def
      have hc1 : c ≤ 1 := by cases b <;> simp [hc_def]
      -- the current word has all bits at offsets ≥ i % w clear, so v < 2 ^ (i % w)
      have hvlt : v < 2 ^ (i % w) := by
        apply lt_two_pow_of_bits_clear (i % w) (w - i % w) v
        · have he : i % w + (w - i % w) = w := by
            have := Nat.mod_lt i hw
            omega
          rw [he]; exact hlt (i / w)
        · intro q hq1 hq2
          have hq3 : q < w := by omega
          have hi0 := Nat.div_add_mod i w
          have hp : i ≤ w * (i / w) + q := by omega
          have h1 := hcl (w * (i / w) + q) hp
          have hdiv : (w * (i / w) + q) / w = i / w := by
            rw [Nat.mul_comm, Nat.add_comm, Nat.add_mul_div_right _ _ hw,
              Nat.div_eq_of_lt hq3]
            omega
          have hmod : (w * (i / w) + q) % w = q := by
            rw [Nat.mul_comm, Nat.add_comm, Nat.add_mul_mod_self_right,
              Nat.mod_eq_of_lt hq3]
          rw [hdiv, hmod] at h1
          exact h1
      have hvnew : v + c <<< (i % w) = v + c * 2 ^ (i % w) := by
        rw [Nat.shiftLeft_eq]
      have hnewlt : v + c * 2 ^ (i % w) < 2 ^ w := by
        calc v + c * 2 ^ (i % w) < 2 ^ (i % w) * 2 := add_bit_lt hvlt hc1
          _ = 2 ^ (i % w + 1) := by rw [Nat.pow_succ]
          _ ≤ 2 ^ w := Nat.pow_le_pow_right (by omega)
              (by have := Nat.mod_lt i hw; omega)
      have hmodid : (v + c <<< (i % w)) % 2 ^ w = v + c * 2 ^ (i % w) := by
        rw [hvnew, Nat.mod_eq_of_lt hnewlt]
      set out' := out.set (i / w) ((v + c <<< (i % w)) % 2 ^ w) with houtDef
      have houtAt : out'.getD (i / w) 0 = v + c * 2 ^ (i % w) := by
        rw [houtDef, getD_set_self out (i / w) _ hiw]
        exact hmodid
      have houtNe : ∀ j, j ≠ i / w → out'.getD j 0 = out.getD j 0 := by
        intro j hj
        exact getD_set_ne out (i / w) j _ (fun h => hj h.symm)
      have hlt' : ∀ j, out'.getD j 0 < 2 ^ w := by
        intro j
        by_cases h : j = i / w
        · rw [h, houtAt]; exact hnewlt
        · rw [houtNe j h]; exact hlt j
      have hcl' : ∀ p, i + 1 ≤ p → (out'.getD (p / w) 0).testBit (p % w) = false := by
        intro p hp
        by_cases h : p / w = i / w
        · rw [h, houtAt]
          have h1 := Nat.div_add_mod p w
          rw [h] at h1
          have h2 := Nat.div_add_mod i w
          have hplt := Nat.mod_lt p hw
          have hgt : i % w < p % w := by omega
          apply Nat.testBit_lt_two_pow
          calc v + c * 2 ^ (i % w) < 2 ^ (i % w) * 2 := add_bit_lt hvlt hc1
            _ = 2 ^ (i % w + 1) := by rw [Nat.pow_succ]
            _ ≤ 2 ^ (p % w) := Nat.pow_le_pow_right (by omega) (by omega)
        · rw [houtNe _ h]; exact hcl p (by omega)
      have hlen' : (i + 1) + rest.length ≤ out'.length * w := by
        rw [houtDef, List.length_set]
        simp only [List.length_cons] at hlen
        omega
      have IH := ih (i + 1) out' hlt' hcl' hlen'
      show ((packLoop w rest (i + 1) out').getD (p / w) 0).testBit (p % w) = _
      rw [IH p]
      by_cases hin : i ≤ p ∧ p < i + (b :: rest).length
      · rcases Nat.eq_or_lt_of_le hin.1 with heq | hlt2
        · -- p = i : bit written by this iteration, untouched afterwards
          subst heq
          have hnotin : ¬ (i + 1 ≤ i ∧ i < i + 1 + rest.length) := by omega
          rw [if_neg hnotin,
            if_pos (show i ≤ i ∧ i < i + (b :: rest).length by
              simp only [List.length_cons]; omega)]
          rw [houtAt, Nat.sub_self]
          rw [testBit_add_mul_pow_self hvlt hc1]
          cases b <;> simp [hc_def]
        · -- p > i : bit written by the recursive call
          have hin' : (i + 1 ≤ p ∧ p < i + 1 + rest.length) := by
            simp only [List.length_cons] at hin
            omega
          rw [if_pos hin',
            if_pos (show i ≤ p ∧ p < i + (b :: rest).length from hin)]
          have hsub : p - i = (p - (i + 1)) + 1 := by omega
          rw [hsub, List.getD_cons_succ]
      · -- p outside the written range: the original bit survives
        have hnotin' : ¬ (i + 1 ≤ p ∧ p < i + 1 + rest.length) := by
          simp only [List.length_cons] at hin
          omega
        rw [if_neg hnotin', if_neg hin]
        by_cases h : p / w = i / w
        · rw [h, houtAt, ← hv_def]
          rcases Nat.lt_or_ge p i with hpi | hpi
          · -- p < i in the same word: offset below i % w, low bits unchanged
            have h1 := Nat.div_add_mod p w
            rw [h] at h1
            have h2 := Nat.div_add_mod i w
            have hq : p % w < i % w := by omega
            exact testBit_add_mul_pow_lt hvlt hq
          · -- p ≥ i + ins.length in the same word: both bits are clear
            have hpgt : i + 1 ≤ p := by
              simp only [List.length_cons] at hin
              omega
            have h1 := Nat.div_add_mod p w
            rw [h] at h1
            have h2 := Nat.div_add_mod i w
            have hplt := Nat.mod_lt p hw
            have hgt : i % w < p % w := by omega
            have hleft : (v + c * 2 ^ (i % w)).testBit (p % w) = false := by
              apply Nat.testBit_lt_two_pow
              calc v + c * 2 ^ (i % w) < 2 ^ (i % w) * 2 := add_bit_lt hvlt hc1
                _ = 2 ^ (i % w + 1) := by rw [Nat.pow_succ]
                _ ≤ 2 ^ (p % w) := Nat.pow_le_pow_right (by omega) (by omega)
            have hright : (v).testBit (p % w) = false := by
              have h3 := hcl p (by omega)
              rw [h, ← hv_def] at h3
              exact h3
            rw [hleft, hright]
        · rw [houtNe _ h]

theorem length_packLoop (w : Nat) :
    ∀ (ins : List Bool) (i : Nat) (out : List Nat),
      (packLoop w ins i out).length = out.length := by
  intro ins
  induction ins with
  | nil => intro i out; rfl
  | cons b rest ih =>
      intro i out
      show (packLoop w rest (i + 1) _).length = _
      rw [ih, List.length_set]

theorem length_pack_vector_bool (w : Nat) (inp : List Bool) :
    (pack_vector_bool w inp).length =
      inp.length / w + if inp.length % w ≠ 0 then 1 else 0 := by
  rw [pack_vector_bool, length_packLoop, List.length_replicate]

/-- `n` input bits always fit in `ceil(n / w)` words of `w` bits. -/
theorem le_ceil_mul (w n : Nat) (hw : 0 < w) :
    n ≤ (n / w + if n % w ≠ 0 then 1 else 0) * w := by
  have h0 := Nat.div_add_mod n w
  have h1 := Nat.mod_lt n hw
  by_cases h : n % w = 0
  · simp only [h, ne_eq, not_true_eq_false, if_false, Nat.add_zero]
    have h2 : n / w * w = w * (n / w) := by ring
    omega
  · simp only [ne_eq, h, not_false_eq_true, if_true]
    have h2 : (n / w + 1) * w = w * (n / w) + w := by ring
    omega

/-- Word `n / w`, offset `n % w` of the packed encoding holds input bit `n`. -/
theorem pack_vector_bool_testBit (w : Nat) (hw : 0 < w) (inp : List Bool) (n : Nat)
    (hn : n < inp.length) :
    ((pack_vector_bool w inp).getD (n / w) 0).testBit (n % w) = inp.getD n false := by
  rw [pack_vector_bool]
  have h := packLoop_testBit w hw inp 0
    (List.replicate (inp.length / w + if inp.length % w ≠ 0 then 1 else 0) 0)
    (fun j => by rw [getD_replicate_zero]; exact Nat.two_pow_pos w)
    (fun p _ => by rw [getD_replicate_zero]; exact Nat.zero_testBit _)
    (by rw [List.length_replicate]; simpa using le_ceil_mul w inp.length hw)
  rw [h n, if_pos ⟨Nat.zero_le n, by omega⟩, Nat.sub_zero]

theorem getD_zipWith (f : Nat → Nat → Nat) (l1 l2 : List Nat) (j : Nat)
    (h1 : j < l1.length) (h2 : j < l2.length) :
    (List.zipWith f l1 l2).getD j 0 = f (l1.getD j 0) (l2.getD j 0) := by
  simp [List.getD_eq_getElem?_getD, List.getElem?_zipWith, List.getElem?_eq_getElem h1,
    List.getElem?_eq_getElem h2]

/-- Unpacking the word-wise combination (by `f`) of two packed encodings is
the element-wise combination (by `g`) of the sequences, whenever `f` acts on
words as `g` acts on individual bits. -/
theorem unpack_zipWith_pack (w : Nat) (hw : 0 < w) (f : Nat → Nat → Nat)
    (g : Bool → Bool → Bool)
    (hfg : ∀ x y i, (f x y).testBit i = g (x.testBit i) (y.testBit i))
    (a b : List Bool) (hab : a.length = b.length) :
    unpack_vector_bool w (List.zipWith f (pack_vector_bool w a) (pack_vector_bool w b))
        a.length
      = List.zipWith g a b := by
  apply List.ext_getElem
  · simp [unpack_vector_bool, hab]
  · intro n h1 h2
    simp only [unpack_vector_bool, List.getElem_map, List.getElem_range]
    have hn : n < a.length := by simpa [unpack_vector_bool] using h1
    have hceil : n / w < (pack_vector_bool w a).length := by
      rw [length_pack_vector_bool]
      have := le_ceil_mul w a.length hw
      have h3 : n < (a.length / w + if a.length % w ≠ 0 then 1 else 0) * w := by omega
      rw [Nat.mul_comm] at h3
      exact Nat.div_lt_of_lt_mul h3
    have hceil2 : n / w < (pack_vector_bool w b).length := by
      rw [length_pack_vector_bool, ← hab]
      rw [length_pack_vector_bool] at hceil
      exact hceil
    rw [getD_zipWith f _ _ _ hceil hceil2]
    rw [unpack_bit_eq_testBit w _ (n % w) hw (Nat.mod_lt n hw)]
    rw [hfg]
    rw [pack_vector_bool_testBit w hw a n hn,
      pack_vector_bool_testBit w hw b n (by omega)]
    rw [List.getD_eq_getElem a false (show n < a.length by omega),
      List.getD_eq_getElem b false (show n < b.length by omega)]
    rw [List.getElem_zipWith]
    cases hx : g a[n] b[n] <;> simp [hx]

-- ===================================================================
-- Claim theorems
-- ===================================================================

/-- C1: packing a boolean sequence of any length with `pack_vector_bool`
and unpacking the packed words with `unpack_vector_bool` into a vector of
the original length reproduces the original sequence exactly, for any
positive word width. -/
theorem pack_unpack_roundtrip (w : Nat) (hw : 0 < w) (inp : List Bool) :
    unpack_vector_bool w (pack_vector_bool w inp) inp.length = inp := by
  apply List.ext_getElem
  · simp [unpack_vector_bool]
  · intro n h1 h2
    simp only [unpack_vector_bool, List.getElem_map, List.getElem_range]
    rw [unpack_bit_eq_testBit w _ (n % w) hw (Nat.mod_lt n hw)]
    rw [pack_vector_bool_testBit w hw inp n (by simpa using h2)]
    rw [List.getD_eq_getElem inp false (show n < inp.length by simpa using h2)]
    cases hx : inp[n] <;> simp [hx]

/-- Witness for C1: a concrete 3-bit sequence at word width 32. -/
theorem pack_unpack_roundtrip_witness :
    0 < 32 ∧ unpack_vector_bool 32 (pack_vector_bool 32 [true, false, true]) 3
      = [true, false, true] :=
  ⟨by decide, pack_unpack_roundtrip 32 (by decide) [true, false, true]⟩

/-- C10: `unpack_vector_bool` produces exactly `out_size` entries (the
output keeps the caller's pre-sized length), every extracted bit value is
0 or 1, and the debug assertion states exactly that
`ceil(out_size / w)` equals the input word count. -/
theorem unpack_vector_bool_safety (w : Nat) (hw : 0 < w) (inp : List Nat)
    (out_size x o : Nat) (ho : o < w) :
    (unpack_vector_bool w inp out_size).length = out_size
    ∧ unpack_bit w x o ≤ 1
    ∧ (unpack_assert w out_size inp = true ↔
        out_size / w + (if out_size % w ≠ 0 then 1 else 0) = inp.length) := by
  refine ⟨?_, ?_, ?_⟩
  · simp [unpack_vector_bool]
  · rw [unpack_bit_eq_testBit w x o hw ho]
    cases hx : x.testBit o <;> simp [hx]
  · simp [unpack_assert]

/-- Witness for C10 at word width 8. -/
theorem unpack_vector_bool_safety_witness :
    0 < 8 ∧ 3 < 8 ∧
      ((unpack_vector_bool 8 [5] 3).length = 3
       ∧ unpack_bit 8 255 3 ≤ 1
       ∧ (unpack_assert 8 3 [5] = true ↔
           3 / 8 + (if 3 % 8 ≠ 0 then 1 else 0) = [5].length)) :=
  ⟨by decide, by decide, unpack_vector_bool_safety 8 (by decide) [5] 3 255 3 (by decide)⟩

/-- C4: on bit-packed boolean vectors, the word-wise bitwise AND of the
packed encodings unpacks to the element-wise boolean minimum of the
original sequences, and the word-wise bitwise OR unpacks to the
element-wise maximum — just as `Parallel::min`/`max` on `vector<bool>`
realize the reductions through `MPI_BAND`/`MPI_BOR` on packed words. -/
theorem bool_vector_min_max_bitwise (w : Nat) (hw : 0 < w) (a b : List Bool)
    (hab : a.length = b.length) :
    unpack_vector_bool w
        (List.zipWith (· &&& ·) (pack_vector_bool w a) (pack_vector_bool w b)) a.length
      = List.zipWith min a b
    ∧ unpack_vector_bool w
        (List.zipWith (· ||| ·) (pack_vector_bool w a) (pack_vector_bool w b)) a.length
      = List.zipWith max a b := by
  constructor
  · apply unpack_zipWith_pack w hw _ _ _ a b hab
    intro x y i
    rw [Nat.testBit_and]
    cases hx : x.testBit i <;> cases hy : y.testBit i <;> decide
  · apply unpack_zipWith_pack w hw _ _ _ a b hab
    intro x y i
    rw [Nat.testBit_or]
    cases hx : x.testBit i <;> cases hy : y.testBit i <;> decide

/-- Witness for C4: two concrete 3-bit vectors at word width 8. -/
theorem bool_vector_min_max_bitwise_witness :
    0 < 8 ∧ [true, false, true].length = [false, true, true].length ∧
      (unpack_vector_bool 8
          (List.zipWith (· &&& ·) (pack_vector_bool 8 [true, false, true])
            (pack_vector_bool 8 [false, true, true])) [true, false, true].length
        = List.zipWith min [true, false, true] [false, true, true]
       ∧ unpack_vector_bool 8
          (List.zipWith (· ||| ·) (pack_vector_bool 8 [true, false, true])
            (pack_vector_bool 8 [false, true, true])) [true, false, true].length
        = List.zipWith max [true, false, true] [false, true, true]) :=
  ⟨by decide, by decide,
    bool_vector_min_max_bitwise 8 (by decide) [true, false, true] [false, true, true] rfl⟩

theorem foldl_min_le {T : Type} [LinearOrder T] :
    ∀ (xs : List T) (x : T), xs.foldl min x ≤ x := by
  intro xs
  induction xs with
  | nil => intro x; exact le_refl x
  | cons y ys ih =>
      intro x
      calc (y :: ys).foldl min x = ys.foldl min (min x y) := rfl
        _ ≤ min x y := ih (min x y)
        _ ≤ x := min_le_left x y

theorem foldl_min_le_mem {T : Type} [LinearOrder T] :
    ∀ (xs : List T) (x y : T), y ∈ xs → xs.foldl min x ≤ y := by
  intro xs
  induction xs with
  | nil => intro x y h; cases h
  | cons z zs ih =>
      intro x y h
      rcases List.mem_cons.mp h with h | h
      · subst h
        calc (y :: zs).foldl min x = zs.foldl min (min x y) := rfl
          _ ≤ min x y := foldl_min_le zs (min x y)
          _ ≤ y := min_le_right x y
      · exact ih (min x z) y h

theorem foldl_min_mem_or {T : Type} [LinearOrder T] :
    ∀ (xs : List T) (x : T), xs.foldl min x = x ∨ xs.foldl min x ∈ xs := by
  intro xs
  induction xs with
  | nil => intro x; left; rfl
  | cons z zs ih =>
      intro x
      rcases ih (min x z) with h | h
      · rcases min_choice x z with h2 | h2
        · left
          show zs.foldl min (min x z) = x
          rw [h, h2]
        · right
          show zs.foldl min (min x z) ∈ z :: zs
          rw [h, h2]
          exact List.mem_cons_self z zs
      · right
        exact List.mem_cons_of_mem z h

theorem allreduceMin_le {T : Type} [LinearOrder T] [Inhabited T] (vs : List T)
    (y : T) (hy : y ∈ vs) : allreduceMin vs ≤ y := by
  cases vs with
  | nil => cases hy
  | cons x xs =>
      rcases List.mem_cons.mp hy with h | h
      · subst h
        exact foldl_min_le xs y
      · exact foldl_min_le_mem xs x y h

theorem allreduceMin_mem {T : Type} [LinearOrder T] [Inhabited T] (vs : List T)
    (h : vs ≠ []) : allreduceMin vs ∈ vs := by
  cases vs with
  | nil => exact absurd rfl h
  | cons x xs =>
      show xs.foldl min x ∈ x :: xs
      rcases foldl_min_mem_or xs x with h1 | h1
      · rw [h1]; exact List.mem_cons_self x xs
      · exact List.mem_cons_of_mem x h1

theorem foldl_max_ge {T : Type} [LinearOrder T] :
    ∀ (xs : List T) (x : T), x ≤ xs.foldl max x := by
  intro xs
  induction xs with
  | nil => intro x; exact le_refl x
  | cons y ys ih =>
      intro x
      calc x ≤ max x y := le_max_left x y
        _ ≤ ys.foldl max (max x y) := ih (max x y)
        _ = (y :: ys).foldl max x := rfl

theorem foldl_max_ge_mem {T : Type} [LinearOrder T] :
    ∀ (xs : List T) (x y : T), y ∈ xs → y ≤ xs.foldl max x := by
  intro xs
  induction xs with
  | nil => intro x y h; cases h
  | cons z zs ih =>
      intro x y h
      rcases List.mem_cons.mp h with h | h
      · subst h
        calc y ≤ max x y := le_max_right x y
          _ ≤ zs.foldl max (max x y) := foldl_max_ge zs (max x y)
          _ = (y :: zs).foldl max x := rfl
      · exact ih (max x z) y h

theorem foldl_max_mem_or {T : Type} [LinearOrder T] :
    ∀ (xs : List T) (x : T), xs.foldl max x = x ∨ xs.foldl max x ∈ xs := by
  intro xs
  induction xs with
  | nil => intro x; left; rfl
  | cons z zs ih =>
      intro x
      rcases ih (max x z) with h | h
      · rcases max_choice x z with h2 | h2
        · left
          show zs.foldl max (max x z) = x
          rw [h, h2]
        · right
          show zs.foldl max (max x z) ∈ z :: zs
          rw [h, h2]
          exact List.mem_cons_self z zs
      · right
        exact List.mem_cons_of_mem z h

theorem allreduceMax_ge {T : Type} [LinearOrder T] [Inhabited T] (vs : List T)
    (y : T) (hy : y ∈ vs) : y ≤ allreduceMax vs := by
  cases vs with
  | nil => cases hy
  | cons x xs =>
      rcases List.mem_cons.mp hy with h | h
      · subst h
        exact foldl_max_ge xs y
      · exact foldl_max_ge_mem xs x y h

theorem allreduceMax_mem {T : Type} [LinearOrder T] [Inhabited T] (vs : List T)
    (h : vs ≠ []) : allreduceMax vs ∈ vs := by
  cases vs with
  | nil => exact absurd rfl h
  | cons x xs =>
      show xs.foldl max x ∈ x :: xs
      rcases foldl_max_mem_or xs x with h1 | h1
      · rw [h1]; exact List.mem_cons_self x xs
      · exact List.mem_cons_of_mem x h1

/-- C2: `verify` returns true exactly when the value is identical on all
ranks (equal to both the global min and the global max), the returned flag
is itself min-reduced so it is the same on every rank, and with a single
process `verify` always returns true. -/
theorem verify_spec {T : Type} [LinearOrder T] [Inhabited T]
    (vs : List T) (r r2 : Nat) (x : T) :
    ((verify vs r).1 = true ↔ ∀ a ∈ vs, ∀ b ∈ vs, a = b)
    ∧ (verify vs r).1 = (verify vs r2).1
    ∧ (verify [x] r).1 = true := by
  refine ⟨?_, ?_, ?_⟩
  · by_cases hP : 1 < vs.length
    · have hne : vs ≠ [] := by
        intro he
        rw [he] at hP
        simp at hP
      simp only [verify, if_pos hP, decide_eq_true_eq]
      set m := allreduceMin vs with hm
      set M := allreduceMax vs with hM
      set f : T → Nat := fun y => cond (decide (y = m) && decide (y = M)) 1 0 with hf
      have hstep1 : allreduceMin (vs.map f) ≠ 0 ↔ ∀ y ∈ vs, f y ≠ 0 := by
        constructor
        · intro h y hy
          have hmem : f y ∈ vs.map f := List.mem_map_of_mem f hy
          have hle := allreduceMin_le (vs.map f) (f y) hmem
          omega
        · intro h
          have hne2 : vs.map f ≠ [] := by
            intro he
            exact hne (List.map_eq_nil_iff.mp he)
          have hmem := allreduceMin_mem (vs.map f) hne2
          rcases List.mem_map.mp hmem with ⟨y, hy, hfy⟩
          rw [← hfy]
          exact h y hy
      have hstep2 : ∀ y, f y ≠ 0 ↔ (y = m ∧ y = M) := by
        intro y
        rw [hf]
        by_cases h1 : y = m
        · by_cases h2 : y = M
          · have h3 : m = M := by rw [← h1, ← h2]
            simp [h1, h2, h3]
          · have h3 : ¬ m = M := h1 ▸ h2
            simp [h1, h3]
        · simp [h1]
      have hstep3 : (∀ y ∈ vs, y = m ∧ y = M) ↔ ∀ a ∈ vs, ∀ b ∈ vs, a = b := by
        constructor
        · intro h a ha b hb
          rw [(h a ha).1, (h b hb).1]
        · intro h y hy
          constructor
          · exact h y hy m (allreduceMin_mem vs hne)
          · exact h y hy M (allreduceMax_mem vs hne)
      rw [hstep1]
      constructor
      · intro h
        exact hstep3.mp (fun y hy => (hstep2 y).mp (h y hy))
      · intro h y hy
        exact (hstep2 y).mpr (hstep3.mpr h y hy)
    · simp only [verify, if_neg hP]
      constructor
      · intro _ a ha b hb
        cases vs with
        | nil => cases ha
        | cons c tl =>
            cases tl with
            | nil =>
                rw [List.mem_singleton.mp ha, List.mem_singleton.mp hb]
            | cons d tl2 =>
                exfalso
                apply hP
                simp only [List.length_cons]
                omega
      · intro _; trivial
  · by_cases hP : 1 < vs.length
    · simp [verify, if_pos hP]
    · simp [verify, if_neg hP]
  · simp [verify]

/-- C3: for every payload shape (scalar, vector, vector of vectors),
`send_receive` with destination and source both equal to the local rank
copies the send value into the receive value and issues no transport
call. -/
theorem send_receive_self_copy {T : Type} (procId : Nat) (tr : Transport T)
    (x : T) (v : List T) (vv : List (List T)) (dest src : Nat)
    (hd : dest = procId) (hs : src = procId) :
    send_receive_scalar procId tr dest x src = (x, 0)
    ∧ send_receive_vector procId tr dest v src = (v, 0)
    ∧ send_receive_vecvec procId tr dest vv src = (vv, 0) := by
  subst hd
  subst hs
  refine ⟨?_, ?_, ?_⟩ <;>
    simp [send_receive_scalar, send_receive_vector, send_receive_vecvec]

/-- Witness for C3 with a concrete transport oracle and rank 0. -/
theorem send_receive_self_copy_witness :
    (0 : Nat) = 0 ∧ (0 : Nat) = 0 ∧
      (send_receive_scalar 0 idTransport 0 (5 : Nat) 0 = (5, 0)
       ∧ send_receive_vector 0 idTransport 0 [1, 2] 0 = ([1, 2], 0)
       ∧ send_receive_vecvec 0 idTransport 0 [[3], [4, 5]] 0 = ([[3], [4, 5]], 0)) :=
  ⟨rfl, rfl, send_receive_self_copy 0 idTransport 5 [1, 2] [[3], [4, 5]] 0 0 rfl rfl⟩

/-- C8: with a single process, every modelled collective (min, max and sum
on scalars and vectors, verify, gather of a vector, allgather, alltoall,
broadcast) makes zero transport calls and leaves its input unchanged
(verify reports true). -/
theorem single_process_identity {T : Type} [LinearOrder T] [Inhabited T] [Add T]
    (x : T) (v : List T) (s : List Char) :
    par_min_scalar [x] = ([x], 0)
    ∧ par_max_scalar [x] = ([x], 0)
    ∧ par_sum_scalar [x] = ([x], 0)
    ∧ par_min_vector [v] = ([v], 0)
    ∧ par_max_vector [v] = ([v], 0)
    ∧ par_sum_vector [v] = ([v], 0)
    ∧ verify [x] 0 = (true, 0)
    ∧ gather_vector 0 [v] = ([v], 0)
    ∧ allgather_vector [v] = ([v], 0)
    ∧ alltoall [v] = ([v], 0)
    ∧ broadcast_vector 0 [v] = ([v], 0)
    ∧ broadcast_string 0 [s] = ([s], 0) := by
  refine ⟨?_, ?_, ?_, ?_, ?_, ?_, ?_, ?_, ?_, ?_, ?_, ?_⟩ <;>
    simp [par_min_scalar, par_max_scalar, par_sum_scalar, par_min_vector,
      par_max_vector, par_sum_vector, verify, gather_vector, allgather_vector,
      alltoall, broadcast_vector, broadcast_string]

/-- C9: in the no-transport build, blocking `send` and `recv` hit the
fatal `libmesh_error` path, while `isend`, `irecv` and both `wait`
variants are no-ops that leave buffer and request untouched. -/
theorem serial_ops_spec {T : Type} (dest : Nat) (buf : List T) (tag : Nat)
    (src : Int) (tag2 : Int) (req : Nat) (reqs : List Nat) :
    serial_send dest buf tag = SerialResult.fatal
    ∧ serial_recv src buf tag2 = SerialResult.fatal
    ∧ serial_isend dest buf req tag2 = SerialResult.ok (buf, req)
    ∧ serial_irecv src buf req tag2 = SerialResult.ok (buf, req)
    ∧ serial_wait req = SerialResult.ok ()
    ∧ serial_waitall reqs = SerialResult.ok () :=
  ⟨rfl, rfl, rfl, rfl, rfl, rfl⟩

theorem length_resizeTo {T : Type} [Inhabited T] (l : List T) (n : Nat) :
    (resizeTo l n).length = n := by
  simp only [resizeTo, List.length_append, List.length_take, List.length_replicate]
  omega

theorem length_writeAt {T : Type} (dst : List T) (pos : Nat) (src : List T)
    (h : pos + src.length ≤ dst.length) :
    (writeAt dst pos src).length = dst.length := by
  simp only [writeAt, List.length_append, List.length_take, List.length_drop]
  omega

theorem displacementLoop_fst : ∀ (ls : List Nat) (g : Nat),
    (displacementLoop ls g).1 = g + ls.sum := by
  intro ls
  induction ls with
  | nil => intro g; simp [displacementLoop]
  | cons l ls ih =>
      intro g
      simp only [displacementLoop, List.sum_cons]
      rw [ih]
      omega

/-- Writing each source block at the displacement computed by the prefix
loop concatenates the blocks in order. -/
theorem gathervWrite_flatten {T : Type} :
    ∀ (srcs : List (List T)) (buf : List T) (g : Nat),
      g + (srcs.map List.length).sum ≤ buf.length →
      gathervWrite buf (displacementLoop (srcs.map List.length) g).2 srcs
        = buf.take g ++ srcs.flatten ++ buf.drop (g + (srcs.map List.length).sum) := by
  intro srcs
  induction srcs with
  | nil =>
      intro buf g h
      simp only [List.map_nil, displacementLoop, List.flatten_nil, List.append_nil,
        List.sum_nil, Nat.add_zero]
      show buf = buf.take g ++ buf.drop g
      rw [List.take_append_drop]
  | cons s ss ih =>
      intro buf g h
      simp only [List.map_cons, List.sum_cons, displacementLoop, List.flatten_cons] at h ⊢
      show gathervWrite (writeAt buf g s)
          (displacementLoop (ss.map List.length) (g + s.length)).2 ss = _
      have hle : g + s.length ≤ buf.length := by omega
      have hlen' : (writeAt buf g s).length = buf.length := length_writeAt buf g s hle
      have hih := ih (writeAt buf g s) (g + s.length) (by omega)
      rw [hih]
      have hlength1 : (buf.take g ++ s).length = g + s.length := by
        simp only [List.length_append, List.length_take]
        omega
      have htake : (writeAt buf g s).take (g + s.length) = buf.take g ++ s := by
        rw [writeAt]
        exact List.take_left' hlength1
      have hdrop : ∀ k, (writeAt buf g s).drop (g + s.length + k)
          = buf.drop (g + s.length + k) := by
        intro k
        rw [writeAt]
        rw [show g + s.length + k = (buf.take g ++ s).length + k by rw [hlength1]]
        rw [← List.drop_drop, List.drop_left, List.drop_drop, hlength1]
      rw [htake, hdrop]
      simp only [List.append_assoc]
      have h3 : g + s.length + (ss.map List.length).sum
          = g + (s.length + (ss.map List.length).sum) := by omega
      rw [h3]

/-- In a list of equal-length blocks, taking block `j` out of the
concatenation recovers the `j`-th block. -/
theorem flatten_chunk {T : Type} :
    ∀ (ls : List (List T)) (K j : Nat), (∀ x ∈ ls, x.length = K) → j < ls.length →
      ((ls.flatten).drop (j * K)).take K = ls.getD j [] := by
  intro ls
  induction ls with
  | nil =>
      intro K j _ h
      simp at h
  | cons s ss ih =>
      intro K j hlen hj
      cases j with
      | zero =>
          simp only [Nat.zero_mul, List.drop_zero, List.flatten_cons, List.getD_cons_zero]
          exact List.take_left' (hlen s (by simp))
      | succ j2 =>
          simp only [List.flatten_cons, List.getD_cons_succ]
          have hs : s.length = K := hlen s (by simp)
          have hdrop : (s ++ ss.flatten).drop ((j2 + 1) * K) = (ss.flatten).drop (j2 * K) := by
            have h1 : (j2 + 1) * K = s.length + j2 * K := by rw [hs]; ring
            rw [h1, ← List.drop_drop, List.drop_left]
          rw [hdrop]
          exact ih K j2 (fun y hy => hlen y (by simp [hy])) (by simpa using hj)

theorem map_getD_range {α : Type} (l : List α) (d : α) :
    (List.range l.length).map (fun i => l.getD i d) = l := by
  apply List.ext_getElem
  · simp
  · intro n h1 h2
    simp only [List.getElem_map, List.getElem_range]
    exact List.getD_eq_getElem l d h2

theorem nat_sum_eq_zero {ls : List Nat} (h : ls.sum = 0) : ∀ x ∈ ls, x = 0 := by
  induction ls with
  | nil => intro x hx; cases hx
  | cons a as ih =>
      intro x hx
      simp only [List.sum_cons] at h
      rcases List.mem_cons.mp hx with h1 | h1
      · omega
      · exact ih (by omega) x h1

theorem getD_mem_of_lt {T : Type} (l : List T) (n : Nat) (d : T) (h : n < l.length) :
    l.getD n d ∈ l := by
  rw [List.getD_eq_getElem l d h]
  exact List.getElem_mem h

/-- C5: for every root and ensemble of per-rank vectors, the vector gather
leaves the root holding the concatenation of all ranks' vectors in
ascending rank order (so its length is the sum of the per-rank lengths),
and leaves every non-root rank's buffer exactly as it was. -/
theorem gather_vector_spec {T : Type} [Inhabited T] (root i : Nat)
    (bufs : List (List T)) (hroot : root < bufs.length) :
    (gather_vector root bufs).1.getD root [] = bufs.flatten
    ∧ ((gather_vector root bufs).1.getD root []).length = (bufs.map List.length).sum
    ∧ (i < bufs.length → i ≠ root →
        (gather_vector root bufs).1.getD i [] = bufs.getD i []) := by
  have hmain : (gather_vector root bufs).1.getD root [] = bufs.flatten
      ∧ (i < bufs.length → i ≠ root →
          (gather_vector root bufs).1.getD i [] = bufs.getD i []) := by
    by_cases h1 : bufs.length = 1
    · constructor
      · simp only [gather_vector, if_pos h1]
        cases bufs with
        | nil => simp at h1
        | cons b tl =>
            cases tl with
            | nil =>
                have hr : root = 0 := by
                  simp only [List.length_cons, List.length_nil] at hroot
                  omega
                rw [hr]
                simp
            | cons c tl2 =>
                simp only [List.length_cons] at h1
                omega
      · intro _ _
        simp only [gather_vector, if_pos h1]
    · simp only [gather_vector, if_neg h1]
      by_cases h2 : (displacementLoop (bufs.map List.length) 0).1 = 0
      · rw [if_pos h2]
        have hsum : (bufs.map List.length).sum = 0 := by
          have := displacementLoop_fst (bufs.map List.length) 0
          omega
        constructor
        · have hflat : bufs.flatten = [] := by
            rw [← List.length_eq_zero, List.length_flatten]
            exact hsum
          have hself : bufs.getD root [] = [] := by
            rw [← List.length_eq_zero]
            have hmem : (bufs.getD root []).length ∈ bufs.map List.length :=
              List.mem_map_of_mem List.length (getD_mem_of_lt bufs root [] hroot)
            exact nat_sum_eq_zero hsum _ hmem
          rw [hflat, hself]
        · intro _ _
          rfl
      · rw [if_neg h2]
        have hsum := displacementLoop_fst (bufs.map List.length) 0
        constructor
        · rw [getD_map_range _ _ _ _ hroot, if_pos rfl]
          have hlen0 : (resizeTo (bufs.getD root [])
              (displacementLoop (bufs.map List.length) 0).1).length
              = 0 + (bufs.map List.length).sum := by
            rw [length_resizeTo]
            omega
          rw [gathervWrite_flatten bufs _ 0 (by omega)]
          rw [show (0 : Nat) + (bufs.map List.length).sum
            = (resizeTo (bufs.getD root [])
                (displacementLoop (bufs.map List.length) 0).1).length from hlen0.symm]
          rw [List.drop_length, List.take_zero, List.nil_append, List.append_nil]
        · intro hi hne
          rw [getD_map_range _ _ _ _ hi, if_neg hne]
  refine ⟨hmain.1, ?_, hmain.2⟩
  rw [hmain.1, List.length_flatten]

/-- Witness for C5 with two ranks contributing lengths 1 and 2, root 1. -/
theorem gather_vector_spec_witness :
    1 < ([[(1 : Nat)], [2, 3]] : List (List Nat)).length ∧
      ((gather_vector 1 [[(1 : Nat)], [2, 3]]).1.getD 1 [] = [[(1 : Nat)], [2, 3]].flatten
       ∧ ((gather_vector 1 [[(1 : Nat)], [2, 3]]).1.getD 1 []).length
           = ([[(1 : Nat)], [2, 3]].map List.length).sum
       ∧ (0 < ([[(1 : Nat)], [2, 3]] : List (List Nat)).length → 0 ≠ 1 →
           (gather_vector 1 [[(1 : Nat)], [2, 3]]).1.getD 0 []
             = [[(1 : Nat)], [2, 3]].getD 0 [])) :=
  ⟨by decide, gather_vector_spec 1 0 [[1], [2, 3]] (by decide)⟩

/-- C6: on same-size buffers of P·K elements across P ranks, `alltoall`
performs an exact block transpose — the K-block at position j on rank i is
the K-block rank j originally held at position i — and the debug assertion
rejects any buffer whose size is not divisible by the process count. -/
theorem alltoall_spec {T : Type} (bufs : List (List T)) (P K i j : Nat)
    (c : List (List T)) (bb : List T)
    (hP : bufs.length = P) (hP0 : 0 < P)
    (hlen : ∀ b ∈ bufs, b.length = P * K) :
    (i < P → j < P →
      (((alltoall bufs).1.getD i []).drop (j * K)).take K
        = ((bufs.getD j []).drop (i * K)).take K)
    ∧ (bb ∈ c → ¬ (c.length ∣ bb.length) → alltoall_assert c = false) := by
  subst hP
  constructor
  · intro hi hj
    by_cases h1 : bufs.length = 1
    · have hi0 : i = 0 := by omega
      have hj0 : j = 0 := by omega
      subst hi0
      subst hj0
      simp only [alltoall, if_pos h1]
    · simp only [alltoall, if_neg h1]
      rw [getD_map_range _ _ _ _ hi]
      have hbl : (bufs.getD i []).length = bufs.length * K :=
        hlen _ (getD_mem_of_lt bufs i [] hi)
      have hspp : (bufs.getD i []).length / bufs.length = K := by
        rw [hbl, Nat.mul_div_cancel_left K hP0]
      rw [hspp]
      rw [flatten_chunk _ K j ?hK (by simpa using hj)]
      · rw [getD_map_range _ _ _ _ hj]
      case hK =>
        intro x hx
        rcases List.mem_map.mp hx with ⟨j2, hj2, hx2⟩
        have hj2' : j2 < bufs.length := List.mem_range.mp hj2
        rw [← hx2]
        have hlen2 : (bufs.getD j2 []).length = bufs.length * K :=
          hlen _ (getD_mem_of_lt bufs j2 [] hj2')
        have hstep : (i + 1) * K ≤ bufs.length * K :=
          Nat.mul_le_mul_right K (by omega)
        have hring : (i + 1) * K = i * K + K := by ring
        simp only [List.length_take, List.length_drop, hlen2]
        omega
  · intro hmem hdvd
    rw [alltoall_assert]
    by_contra hall
    rw [Bool.not_eq_false, List.all_eq_true] at hall
    have h := hall bb hmem
    rw [beq_iff_eq] at h
    exact hdvd (Nat.dvd_of_mod_eq_zero h)

/-- Witness for C6 on a 2-rank, one-element-per-peer exchange, plus a
buffer of odd size failing the assertion on 2 ranks. -/
theorem alltoall_spec_witness :
    ([[(1 : Nat), 2], [3, 4]] : List (List Nat)).length = 2 ∧ 0 < 2
      ∧ (∀ b ∈ ([[(1 : Nat), 2], [3, 4]] : List (List Nat)), b.length = 2 * 1)
      ∧ ((0 < 2 → 1 < 2 →
            (((alltoall [[(1 : Nat), 2], [3, 4]]).1.getD 0 []).drop (1 * 1)).take 1
              = (([[(1 : Nat), 2], [3, 4]].getD 1 []).drop (0 * 1)).take 1)
         ∧ ([(5 : Nat)] ∈ ([[(5 : Nat)], [6, 7]] : List (List Nat)) →
            ¬ (([[(5 : Nat)], [6, 7]] : List (List Nat)).length ∣ [(5 : Nat)].length) →
            alltoall_assert [[(5 : Nat)], [6, 7]] = false)) :=
  ⟨rfl, by decide, by decide,
    alltoall_spec [[1, 2], [3, 4]] 2 1 0 1 [[5], [6, 7]] [5] rfl (by decide) (by decide)⟩

theorem getD_map_length {T : Type} (l : List (List T)) (n d : Nat) (h : n < l.length) :
    (l.map List.length).getD n d = (l.getD n []).length := by
  rw [List.getD_eq_getElem _ d (by simpa using h), List.getD_eq_getElem l [] h,
    List.getElem_map]

/-- C7: broadcasting a string of any length (0, 1, or longer than a word)
from the root makes every rank's string byte-identical to the root's,
whatever each rank's buffer held before. -/
theorem broadcast_string_spec (root r : Nat) (datas : List (List Char))
    (hroot : root < datas.length) :
    r < datas.length →
      (broadcast_string root datas).1.getD r [] = datas.getD root [] := by
  intro hr
  by_cases h1 : datas.length = 1
  · simp only [broadcast_string, if_pos h1]
    have hrr : r = root := by omega
    rw [hrr]
  · simp only [broadcast_string, if_neg h1]
    rw [getD_map_range _ _ _ _ hr]
    simp only [broadcast_vector, List.length_map, List.length_range]
    rw [if_neg h1]
    rw [getD_map_range _ _ _ _ hr]
    rw [getD_map_range _ _ _ _ hroot]
    rw [if_pos rfl]
    simp only [broadcast_scalar, List.length_map]
    rw [if_neg h1]
    rw [getD_map_range _ _ _ _ hroot]
    rw [getD_map_length datas root default hroot]
    exact map_getD_range (datas.getD root []) default

/-- Witness for C7 with two ranks and differing prior contents. -/
theorem broadcast_string_spec_witness :
    0 < ([['a'], ['b', 'c']] : List (List Char)).length ∧
      (1 < ([['a'], ['b', 'c']] : List (List Char)).length →
        (broadcast_string 0 [['a'], ['b', 'c']]).1.getD 1 []
          = [['a'], ['b', 'c']].getD 0 []) :=
  ⟨by decide, broadcast_string_spec 0 1 [['a'], ['b', 'c']] (by decide)⟩
